import Mathlib

/-!
Verification development for the named-reference dependency analyser
(`src/app.py`).  The Python functions `simplify_formula`,
`extract_named_references`, `find_dependencies`, `topological_sort` and the
multi-file merge loop are shallowly embedded as executable Lean functions,
and the specification's claims about them are settled as theorems below.

Modelling conventions:
  * Python dicts are insertion-ordered association lists with unique keys.
  * Python regular expressions appearing in the source are specialised
    matchers: the two fixed patterns of `simplify_formula` are deterministic
    (their closing delimiters are forced), and the dependency test
    pattern (word boundary, escaped literal label, word boundary) is
    modelled by an explicit word-boundary scan.  Word characters follow
    the ASCII reading of the regex class (letters, digits, underscore).
  * `st.write` diagnostics and the OpenAI collaborator are irrelevant to
    the claims and are not modelled; the per-destination `try/except` of
    the extractor is modelled by an `Option`-returning cell lookup.
-/

namespace SpreadsheetApp

/-! ## Formula normalizer: `simplify_formula` (src/app.py lines 19-24) -/

/-- The single-quote character, written out once to keep the scanner code readable. -/
def quoteChar : Char := '\''

/-- The characters of the literal `.xlsx` that pattern 1 requires before the
closing quote. -/
def xlsxChars : List Char := ['.', 'x', 'l', 's', 'x']

/-- Matcher for the regex `'[^']+\.xlsx'!` at the head of `l`.
Because every character between the two quotes is constrained to be a
non-quote, the closing quote of any match starting here is forced to be the
first quote after the head; the match succeeds exactly when the enclosed
segment is at least six characters long, ends in `.xlsx`, and is followed by
`'!`.  Returns the length of the match. -/
def tryMatch1 (l : List Char) : Option Nat :=
  match l with
  | [] => none
  | c :: rest =>
    if c = quoteChar then
      match rest.findIdx? (fun d => d = quoteChar) with
      | some j =>
        if 6 ≤ j ∧ xlsxChars.isSuffixOf (rest.take j) ∧ rest.get? (j + 1) = some '!' then
          some (j + 3)
        else none
      | none => none
    else none

/-- Matcher for the regex `\[[^\]]+\][^!]*!` at the head of `l`.
The closing bracket is forced to be the first `]` after the head and the
final `!` the first `!` after that bracket.  Returns the length of the
match. -/
def tryMatch2 (l : List Char) : Option Nat :=
  match l with
  | [] => none
  | c :: rest =>
    if c = '[' then
      match rest.findIdx? (fun d => d = ']') with
      | some j =>
        if j = 0 then none
        else
          match (rest.drop (j + 1)).findIdx? (fun d => d = '!') with
          | some k => some (j + k + 3)
          | none => none
      | none => none
    else none

/-- Left-to-right scan of `re.sub(pattern, "", text)`: at each position the
matcher is tried; on a match the matched characters are dropped and the scan
resumes after them, otherwise one character is emitted.  The fuel argument
(instantiated with the length of the list) makes the recursion structural. -/
def scanSub (tm : List Char → Option Nat) : Nat → List Char → List Char
  | 0, l => l
  | n + 1, l =>
    match l with
    | [] => []
    | c :: rest =>
      match tm (c :: rest) with
      | some k => scanSub tm n (List.drop k (c :: rest))
      | none => c :: scanSub tm n rest

/-- `re.sub(r"'[^']+\.xlsx'!", "", ·)` on character lists. -/
def sub1 (l : List Char) : List Char := scanSub tryMatch1 l.length l

/-- `re.sub(r"\[[^\]]+\][^!]*!", "", ·)` on character lists. -/
def sub2 (l : List Char) : List Char := scanSub tryMatch2 l.length l

/-- `simplify_formula` (src/app.py lines 19-24): empty input is returned as
the empty string, otherwise the two substitutions are applied in order. -/
def simplify_formula (f : String) : String :=
  if f = "" then "" else ⟨sub2 (sub1 f.toList)⟩

/-! ## Whole-token dependency test (src/app.py line 79) -/

/-- ASCII reading of the regex word class `\w`. -/
def isWordChar (c : Char) : Bool := c.isAlphanum || c = '_'

/-- Whether the character just before position `i` is a word character
(positions before the start of the text count as non-word). -/
def prevIsWord (text : List Char) : Nat → Bool
  | 0 => false
  | i + 1 =>
    match text.get? i with
    | some c => isWordChar c
    | none => false

/-- Whether the character at position `i` is a word character (positions past
the end of the text count as non-word). -/
def curIsWord (text : List Char) (i : Nat) : Bool :=
  match text.get? i with
  | some c => isWordChar c
  | none => false

/-- The regex metacharacter `\b`: a word boundary sits at position `i` iff
exactly one of the adjacent positions holds a word character. -/
def boundaryAt (text : List Char) (i : Nat) : Bool :=
  prevIsWord text i != curIsWord text i

/-- A whole-token occurrence of `label` at position `i` of `text`:
word boundaries on both sides of a literal, case-sensitive occurrence. -/
def matchTokenAt (label text : List Char) (i : Nat) : Bool :=
  boundaryAt text i && label.isPrefixOf (text.drop i) && boundaryAt text (i + label.length)

/-- `re.search(rf"\b{re.escape(label)}\b", text)` as a Boolean: some position
of `text` carries a whole-token occurrence of `label`. -/
def wordTokenSearch (label text : List Char) : Bool :=
  (List.range (text.length + 1)).any (fun i => matchTokenAt label text i)

/-! ## Reference records and the dependency resolver -/

/-- The per-reference record stored by `extract_named_references`
(src/app.py lines 57-62): destination sheet, raw destination reference,
list of (zero or one) simplified formulas, and originating file label. -/
structure RefInfo where
  sheet : String
  ref : String
  formulas : List String
  file : String
deriving DecidableEq, Repr

/-- The insertion-ordered mapping from reference label to record. -/
abbrev RefMap := List (String × RefInfo)

/-- The dependency graph: label to ordered list of labels it depends on. -/
abbrev DepGraph := List (String × List String)

/-- `" ".join(info.get("formulas", []))` (src/app.py line 75). -/
def formulaTextOf (info : RefInfo) : String :=
  String.intercalate " " info.formulas

/-- One iteration of the outer loop of `find_dependencies` (src/app.py
lines 74-80): the target label together with every other label whose
whole-token occurrence is found in the target's joined formula text. -/
def dependency_row (labels : List String) (p : String × RefInfo) : String × List String :=
  (p.1, labels.filter (fun l => (l != p.1) && wordTokenSearch l.toList (formulaTextOf p.2).toList))

/-- `find_dependencies` (src/app.py lines 70-82).  The Python function
accumulates into a `defaultdict(list)`, so a key materialises in the
returned dict only when at least one dependency is appended for it; the
resulting dict therefore lists, in input order, exactly the targets with a
non-empty dependency list. -/
def find_dependencies (m : RefMap) : DepGraph :=
  (m.map (dependency_row (m.map Prod.fst))).filter (fun row => !row.2.isEmpty)

/-! ## Topological sequencer: `topological_sort` (src/app.py lines 143-165) -/

/-- Dependency list of `x` in the graph, as read by `dependencies[node]`:
the value at the first matching key, `[]` when `x` is not a key. -/
def depsOf (D : DepGraph) (x : String) : List String :=
  ((D.find? (fun p => p.1 == x)).map Prod.snd).getD []

/-- The reversed adjacency built by the first loop of `topological_sort`:
`graphOf D dep` lists, in insertion order and with multiplicity, every node
whose dependency list contains `dep`. -/
def graphOf (D : DepGraph) (dep : String) : List String :=
  (D.map (fun p => (p.2.filter (fun d => d == dep)).map (fun _ => p.1))).flatten

/-- The initial in-degree of the second loop: the number of dependencies
recorded for `x` (0 for nodes that are not keys, matching the
`defaultdict(int)`). -/
def initIndeg (D : DepGraph) (x : String) : Int :=
  ((depsOf D x).length : Int)

/-- The inner `for neighbor in graph[node]` loop: decrement each neighbour's
in-degree in turn, appending a neighbour to the queue at the moment its
in-degree reaches exactly zero.  Returns the updated in-degree map and
queue. -/
def relax : List String → (String → Int) → List String → (String → Int) × List String
  | [], indeg, queue => (indeg, queue)
  | nb :: nbs, indeg, queue =>
    let d : Int := indeg nb - 1
    relax nbs (fun x => if x = nb then d else indeg x)
      (if d = 0 then queue ++ [nb] else queue)

/-- The `while queue` loop of `topological_sort`: pop the front node, append
it to the order, relax its out-neighbours.  Structural recursion on a fuel
argument; `topological_sort` supplies more fuel than the loop can consume,
so the fuel-exhaustion branch is unreachable there. -/
def kahnGo (graph : String → List String) : Nat → List String → (String → Int) → List String → List String
  | 0, _, _, acc => acc
  | fuel + 1, queue, indeg, acc =>
    match queue with
    | [] => acc
    | node :: rest =>
      let p := relax (graph node) indeg rest
      kahnGo graph fuel p.2 p.1 (acc ++ [node])

/-- `topological_sort` (src/app.py lines 143-165): Kahn's algorithm without
any cycle reporting — whatever has been collected when the queue empties is
returned unconditionally. -/
def topological_sort (D : DepGraph) : List String :=
  kahnGo (graphOf D) (D.length + 1)
    ((D.map Prod.fst).filter (fun n => initIndeg D n = 0)) (initIndeg D) []

/-! ## Reference extractor (src/app.py lines 27-67) -/

/-- A cell value as inspected by the extractor: a string (possibly a
formula), an object carrying a `.text` attribute (array formulas), or
anything else (numbers, empty cells, ...). -/
inductive CellValue where
  | str (s : String)
  | textObj (t : String)
  | other
deriving DecidableEq, Repr

/-- A defined-name table entry as exposed by the workbook collaborator. -/
structure DefinedName where
  name : String
  is_external : Bool
  attr_text : String
  destinations : List (String × String)
deriving DecidableEq, Repr

/-- The workbook collaborator: the defined-name table plus cell lookup.
`cellValue sheet coord = none` models the per-destination exception path
(missing sheet, invalid coordinate, unreadable cell). -/
structure Workbook where
  defined_names : List DefinedName
  cellValue : String → String → Option CellValue

/-- `ref.replace("$", "").split("!")[-1].split(":")[0]` (src/app.py
lines 38-39): strip dollar signs, keep the text after the last `!`, then
the text before the first `:`. -/
def topLeftOf (ref : String) : String :=
  let noDollar := (ref.toList.filter (fun c => c ≠ '$'))
  let afterBang := ((noDollar.reverse.takeWhile (fun c => c ≠ '!')).reverse)
  ⟨afterBang.takeWhile (fun c => c ≠ ':')⟩

/-- Python `str.strip()`: drop whitespace from both ends (ASCII reading). -/
def strTrim (s : String) : String :=
  ⟨((s.toList.dropWhile Char.isWhitespace).reverse.dropWhile Char.isWhitespace).reverse⟩

/-- Python `s.startswith("=")`. -/
def startsWithEq (s : String) : Bool :=
  match s.toList with
  | '=' :: _ => true
  | _ => false

/-- The raw formula candidate read from a cell (src/app.py lines 42-47):
a string value starting with `=` is stripped; a `.text`-bearing value is
stringified and stripped; anything else yields no candidate. -/
def rawFormulaOf : CellValue → Option String
  | .str s => if startsWithEq s then some (strTrim s) else none
  | .textObj t => some (strTrim t)
  | .other => none

/-- The `formulas` field stored for a destination (src/app.py lines 49-55):
the simplified formula when the raw candidate is non-empty and starts with
`=`, otherwise the empty list. -/
def formulasOfValue (v : CellValue) : List String :=
  match rawFormulaOf v with
  | some r => if r ≠ "" && startsWithEq r then [simplify_formula r] else []
  | none => []

/-- The record assigned for one successfully read destination. -/
def mkEntry (sheet ref fl : String) (v : CellValue) : RefInfo :=
  ⟨sheet, ref, formulasOfValue v, fl⟩

/-- Python dict assignment `m[k] = v`: replace in place when the key exists,
append otherwise. -/
def dictAssign (m : RefMap) (k : String) (v : RefInfo) : RefMap :=
  if m.any (fun p => p.1 == k) then
    m.map (fun p => if p.1 == k then (k, v) else p)
  else m ++ [(k, v)]

/-- Processing of one `(sheet_name, ref)` destination (src/app.py
lines 34-65): on a readable cell the record is assigned under the bare name
— overwriting any record a previous destination of the same name stored —
and on an exception the destination is skipped. -/
def processDest (wb : Workbook) (fl label : String) (m : RefMap) (dest : String × String) : RefMap :=
  match wb.cellValue dest.1 (topLeftOf dest.2) with
  | none => m
  | some v => dictAssign m label (mkEntry dest.1 dest.2 fl v)

/-- Processing of one defined name: external entries and entries without
definition text are skipped, otherwise every destination is processed in
order. -/
def processName (wb : Workbook) (fl : String) (m : RefMap) (dn : DefinedName) : RefMap :=
  if dn.is_external || dn.attr_text == "" then m
  else dn.destinations.foldl (processDest wb fl dn.name) m

/-- `extract_named_references` (src/app.py lines 27-67). -/
def extract_named_references (wb : Workbook) (fl : String) : RefMap :=
  wb.defined_names.foldl (processName wb fl) []

/-! ## Multi-file merge (src/app.py lines 205-214) -/

/-- Python `base.update(new)`: existing keys keep their position but take
the new value, unseen keys are appended in the new mapping's order. -/
def dictUpdate (base new : RefMap) : RefMap :=
  (base.map (fun p =>
    match new.find? (fun q => q.1 == p.1) with
    | some q => (p.1, q.2)
    | none => p)) ++ new.filter (fun q => !(base.any (fun p => p.1 == q.1)))

/-- The upload loop's accumulation `combined_named_refs.update(refs)`
applied to the per-file extraction results in upload order. -/
def combined_named_refs (files : List RefMap) : RefMap :=
  files.foldl dictUpdate []

/-! ## Proof infrastructure (not part of the embedded source) -/

/-- Occurrence count of a string in a list, written with propositional
equality to keep all proofs over a single notion of counting. -/
def cnt (x : String) : List String → Nat
  | [] => 0
  | a :: l => (if a = x then 1 else 0) + cnt x l

/-- First index of `x` in a list (length of the list when absent);
the `order.indexOf` of the specification. -/
def idxOf (x : String) : List String → Nat
  | [] => 0
  | a :: l => if a = x then 0 else idxOf x l + 1

/-- Number of dependencies in `ds` that have not yet been emitted into
`acc`: the quantity tracked by the `in_degree` counters of
`topological_sort`. -/
def pendingCount (acc ds : List String) : Nat :=
  (ds.filter (fun d => decide (d ∉ acc))).length

/-- Modelled from the spec: the case-insensitive whole-token occurrence
test that claim C4 attributes to the dependency resolver ("match on word
boundaries, case-insensitive").  The source's own test, `wordTokenSearch`,
is case-sensitive; this definition exists to state the claim for its
counterexample. -/
def ciTokenMatch (label text : List Char) : Bool :=
  wordTokenSearch (label.map Char.toLower) (text.map Char.toLower)

/-- Loop invariant of the `while queue` loop of `topological_sort`,
stated at every loop head over the queue, the in-degree map and the order
emitted so far. -/
structure KInv (D : DepGraph) (queue : List String) (indeg : String → Int) (acc : List String) : Prop where
  nodupAQ : (acc ++ queue).Nodup
  memK : ∀ x ∈ acc ++ queue, x ∈ D.map Prod.fst
  nonpos : ∀ x ∈ acc ++ queue, indeg x ≤ 0
  zmem : ∀ x ∈ D.map Prod.fst, indeg x ≤ 0 → x ∈ acc ++ queue
  cntEq : ∀ x, indeg x = (pendingCount acc (depsOf D x) : Int)
  ordered : ∀ t ∈ acc, ∀ s ∈ depsOf D t, s ∈ acc ∧ idxOf s acc < idxOf t acc

/-- What holds of the list returned by `topological_sort`'s loop:
no duplicates, only keys, dependencies of emitted nodes emitted earlier,
and every key all of whose dependencies were emitted is itself emitted. -/
def KFinal (D : DepGraph) (out : List String) : Prop :=
  out.Nodup ∧ (∀ x ∈ out, x ∈ D.map Prod.fst) ∧
    (∀ t ∈ out, ∀ s ∈ depsOf D t, s ∈ out ∧ idxOf s out < idxOf t out) ∧
    (∀ x ∈ D.map Prod.fst, pendingCount out (depsOf D x) = 0 → x ∈ out)

/-- The non-idempotence witness formula `'a.xls'x.xlsx'!x'!` of claim C7:
removing its embedded `'x.xlsx'!` qualifier splices together a fresh
`'a.xlsx'!` qualifier. -/
def c7str : String :=
  ⟨['\'', 'a', '.', 'x', 'l', 's', '\'', 'x', '.', 'x', 'l', 's', 'x', '\'', '!', 'x', '\'', '!']⟩

/-- The formula `'Sheet1'!A1+2` of claim C8: a leading single-quoted
sheet-name qualifier that is not a workbook-file qualifier. -/
def c8str : String :=
  ⟨['\'', 'S', 'h', 'e', 'e', 't', '1', '\'', '!', 'A', '1', '+', '2']⟩

/-- The sheet-qualifier prefix `'Sheet1'!` of `c8str`. -/
def c8qual : String :=
  ⟨['\'', 'S', 'h', 'e', 'e', 't', '1', '\'', '!']⟩

/-- Concrete two-destination workbook for claim C6: one defined name
`Rate` bound to `S1!A1` (a plain value) and `S2!B2` (a formula). -/
def c6wb : Workbook :=
  ⟨[⟨"Rate", false, "S1!$A$1,S2!$B$2", [("S1", "A1"), ("S2", "B2")]⟩],
    fun s c =>
      if s == "S1" && c == "A1" then some (.str "7")
      else if s == "S2" && c == "B2" then some (.str "=X*2") else none⟩

/-- Rank function witnessing cycle-freeness of the Base/Tax/Total graph. -/
def rk0 : String → Nat :=
  fun s => if s = "Base" then 0 else if s = "Tax" then 1 else 2

/-! ## Helper lemmas: counting, indexing, scanning -/

theorem cnt_append (x : String) (l l' : List String) : cnt x (l ++ l') = cnt x l + cnt x l' := by
  induction l with
  | nil => simp [cnt]
  | cons a l ih => simp [cnt, ih]; omega

theorem cnt_pos_iff (x : String) (l : List String) : 0 < cnt x l ↔ x ∈ l := by
  induction l with
  | nil => simp [cnt]
  | cons a l ih =>
    by_cases h : a = x
    · subst h; simp [cnt]
    · simp [cnt, h, ih, Ne.symm h]

theorem cnt_eq_zero_iff (x : String) (l : List String) : cnt x l = 0 ↔ x ∉ l := by
  rw [← cnt_pos_iff]; omega

theorem nodup_iff_cnt_le_one (l : List String) : l.Nodup ↔ ∀ x, cnt x l ≤ 1 := by
  induction l with
  | nil => simp [cnt]
  | cons a l ih =>
    rw [List.nodup_cons, ih]
    constructor
    · rintro ⟨hna, h⟩ x
      by_cases hax : a = x
      · subst hax
        have := (cnt_eq_zero_iff a l).mpr hna
        simp [cnt, this]
      · simpa [cnt, hax] using h x
    · intro h
      constructor
      · have := h a
        simp [cnt] at this
        exact (cnt_eq_zero_iff a l).mp (by omega)
      · intro x
        have := h x
        simp [cnt] at this
        split at this <;> omega

theorem idxOf_append_left (x : String) (l l' : List String) (h : x ∈ l) :
    idxOf x (l ++ l') = idxOf x l := by
  induction l with
  | nil => simp at h
  | cons a l ih =>
    by_cases hax : a = x
    · simp [idxOf, hax]
    · have : x ∈ l := by
        rcases List.mem_cons.mp h with h' | h'
        · exact absurd h'.symm hax
        · exact h'
      simp [idxOf, hax, ih this]

theorem idxOf_append_self (x : String) (l : List String) (h : x ∉ l) :
    idxOf x (l ++ [x]) = l.length := by
  induction l with
  | nil => simp [idxOf]
  | cons a l ih =>
    have hax : a ≠ x := fun he => h (he ▸ List.mem_cons_self a l)
    have hx : x ∉ l := fun hm => h (List.mem_cons_of_mem a hm)
    simp [idxOf, hax, ih hx]

theorem idxOf_lt_length (x : String) (l : List String) (h : x ∈ l) :
    idxOf x l < l.length := by
  induction l with
  | nil => simp at h
  | cons a l ih =>
    by_cases hax : a = x
    · simp [idxOf, hax]
    · have : x ∈ l := by
        rcases List.mem_cons.mp h with h' | h'
        · exact absurd h'.symm hax
        · exact h'
      simp [idxOf, hax]
      exact ih this

theorem pendingCount_nil_acc (ds : List String) : pendingCount [] ds = ds.length := by
  induction ds with
  | nil => rfl
  | cons d ds ih =>
    simp only [pendingCount, List.filter_cons] at ih ⊢
    rw [if_pos (by simp)]
    simp only [List.length_cons]
    omega

theorem pendingCount_eq_zero_iff (acc ds : List String) :
    pendingCount acc ds = 0 ↔ ∀ d ∈ ds, d ∈ acc := by
  unfold pendingCount
  rw [List.length_eq_zero, List.filter_eq_nil_iff]
  constructor
  · intro h d hd
    have := h d hd
    simpa using this
  · intro h d hd
    simpa using h d hd

theorem pendingCount_append_one (acc ds : List String) (node : String) (h : node ∉ acc) :
    pendingCount acc ds = pendingCount (acc ++ [node]) ds + cnt node ds := by
  induction ds with
  | nil => simp [pendingCount, cnt]
  | cons d ds ih =>
    by_cases hdn : d = node
    · subst hdn
      simp only [pendingCount, List.filter_cons] at ih ⊢
      rw [if_pos (by simpa using h), if_neg (by simp)]
      simp only [List.length_cons, cnt, eq_self_iff_true, if_true]
      omega
    · by_cases hda : d ∈ acc
      · simp only [pendingCount, List.filter_cons] at ih ⊢
        rw [if_neg (by simpa using hda), if_neg (by simp [hda, hdn])]
        simp only [cnt, if_neg hdn]
        omega
      · simp only [pendingCount, List.filter_cons] at ih ⊢
        rw [if_pos (by simpa using hda), if_pos (by simp [hda, hdn])]
        simp only [List.length_cons, cnt, if_neg hdn]
        omega

/-- A scan whose matcher fails on every suffix copies its input. -/
theorem scanSub_eq_self (tm : List Char → Option Nat) (l : List Char)
    (h : ∀ t, t <:+ l → tm t = none) : ∀ n, scanSub tm n l = l := by
  induction l with
  | nil => intro n; cases n <;> rfl
  | cons c rest ih =>
    intro n
    cases n with
    | zero => rfl
    | succ n =>
      have hh := h (c :: rest) List.suffix_rfl
      have ihr := ih (fun t ht => h t (ht.trans (List.suffix_cons c rest))) n
      simp [scanSub, hh, ihr]

theorem tryMatch1_none_of_head_ne (l : List Char) (h : ∀ c, l.head? = some c → c ≠ quoteChar) :
    tryMatch1 l = none := by
  cases l with
  | nil => rfl
  | cons c rest =>
    have : c ≠ quoteChar := h c rfl
    simp [tryMatch1, this]

theorem tryMatch2_none_of_head_ne (l : List Char) (h : ∀ c, l.head? = some c → c ≠ '[') :
    tryMatch2 l = none := by
  cases l with
  | nil => rfl
  | cons c rest =>
    have : c ≠ '[' := h c rfl
    simp [tryMatch2, this]

theorem sub1_of_no_quote (l : List Char) (h : quoteChar ∉ l) : sub1 l = l := by
  apply scanSub_eq_self
  intro t ht
  apply tryMatch1_none_of_head_ne
  intro c hc hcq
  subst hcq
  cases t with
  | nil => simp at hc
  | cons a t' =>
    simp at hc
    exact h (ht.subset (hc ▸ List.mem_cons_self a t'))

theorem sub2_of_no_bracket (l : List Char) (h : '[' ∉ l) : sub2 l = l := by
  apply scanSub_eq_self
  intro t ht
  apply tryMatch2_none_of_head_ne
  intro c hc hcq
  subst hcq
  cases t with
  | nil => simp at hc
  | cons a t' =>
    simp at hc
    exact h (ht.subset (hc ▸ List.mem_cons_self a t'))

theorem simplify_eq_self_of_plain (f : String)
    (hq : quoteChar ∉ f.toList) (hb : '[' ∉ f.toList) :
    simplify_formula f = f := by
  unfold simplify_formula
  by_cases hf : f = ""
  · simp [hf]
  · rw [if_neg hf, sub1_of_no_quote _ hq, sub2_of_no_bracket _ hb]
    rfl

/-! ## Claim C7: idempotence of the formula normalizer -/

/-- Claim C7 counterexample: the claim "normalize(normalize(f)) equals
normalize(f) for every formula string f" is false at the concrete formula
`'a.xls'x.xlsx'!x'!`: the first pass removes the embedded `'x.xlsx'!`
qualifier and thereby splices together the fresh qualifier `'a.xlsx'!`,
which a second pass removes. -/
theorem C7_counterexample :
    simplify_formula (simplify_formula c7str) ≠ simplify_formula c7str := by decide

/-- Claim C7 amended: `simplify_formula` is idempotent on every formula
containing no single-quote and no opening-bracket character (on such
formulas neither substitution pattern can match, so the normalizer is the
identity); in general the claimed idempotence fails, as removing a quoted
`.xlsx` qualifier can splice together a new one. -/
theorem C7_amended (f : String) (hq : quoteChar ∉ f.toList) (hb : '[' ∉ f.toList) :
    simplify_formula (simplify_formula f) = simplify_formula f := by
  rw [simplify_eq_self_of_plain f hq hb, simplify_eq_self_of_plain f hq hb]

/-- Witness for C7_amended at the end-to-end example formula `=Base*0.2`. -/
theorem C7_witness :
    (quoteChar ∉ "=Base*0.2".toList ∧ '[' ∉ "=Base*0.2".toList) ∧
      simplify_formula (simplify_formula "=Base*0.2") = simplify_formula "=Base*0.2" :=
  ⟨by decide, C7_amended "=Base*0.2" (by decide) (by decide)⟩

/-! ## Claim C8: leading sheet-name qualifiers -/

theorem findIdx?_quote_first (s rest : List Char) (hsq : quoteChar ∉ s) :
    (s ++ quoteChar :: rest).findIdx? (fun d => d = quoteChar) = some s.length := by
  induction s with
  | nil => simp
  | cons a s ih =>
    have ha : a ≠ quoteChar := fun he => hsq (he ▸ List.mem_cons_self a s)
    have ihs : quoteChar ∉ s := fun hm => hsq (List.mem_cons_of_mem a hm)
    simp [ha, ih ihs]

theorem suffix_plain_no_match (body : List Char)
    (hq : quoteChar ∉ body) (hb : '[' ∉ body) :
    ∀ t, t <:+ body → tryMatch1 t = none ∧ tryMatch2 t = none := by
  intro t ht
  cases t with
  | nil => exact ⟨rfl, rfl⟩
  | cons c t' =>
    have hc : c ∈ body := ht.subset (List.mem_cons_self c t')
    constructor
    · exact tryMatch1_none_of_head_ne _ (by
        intro e he heq
        simp at he
        subst he; subst heq
        exact hq hc)
    · exact tryMatch2_none_of_head_ne _ (by
        intro e he heq
        simp at he
        subst he; subst heq
        exact hb hc)

theorem suffix_tail_no_match (s rest : List Char)
    (hsq : quoteChar ∉ s) (hsb : '[' ∉ s)
    (hrq : quoteChar ∉ rest) (hrb : '[' ∉ rest) :
    ∀ t, t <:+ (s ++ quoteChar :: '!' :: rest) →
      tryMatch1 t = none ∧ tryMatch2 t = none := by
  induction s with
  | nil =>
    intro t ht
    simp only [List.nil_append] at ht
    rcases List.suffix_cons_iff.mp ht with he | ht'
    · subst he
      refine ⟨?_, tryMatch2_none_of_head_ne _ (by intro c hc; simp at hc; subst hc; decide)⟩
      have hnone : ('!' :: rest).findIdx? (fun d => d = quoteChar) = none := by
        rw [List.findIdx?_eq_none_iff]
        intro x hx
        rcases List.mem_cons.mp hx with h | h
        · subst h; decide
        · simp
          exact fun he => hrq (he ▸ h)
      simp [tryMatch1, hnone]
    · rcases List.suffix_cons_iff.mp ht' with he | ht''
      · subst he
        exact ⟨tryMatch1_none_of_head_ne _ (by intro c hc; simp at hc; subst hc; decide),
          tryMatch2_none_of_head_ne _ (by intro c hc; simp at hc; subst hc; decide)⟩
      · exact suffix_plain_no_match rest hrq hrb t ht''
  | cons a s ih =>
    intro t ht
    have ha : a ≠ quoteChar := fun he => hsq (he ▸ List.mem_cons_self a s)
    have hab : a ≠ '[' := fun he => hsb (he ▸ List.mem_cons_self a s)
    have hsq' : quoteChar ∉ s := fun hm => hsq (List.mem_cons_of_mem a hm)
    have hsb' : '[' ∉ s := fun hm => hsb (List.mem_cons_of_mem a hm)
    rw [List.cons_append] at ht
    rcases List.suffix_cons_iff.mp ht with he | ht'
    · subst he
      exact ⟨tryMatch1_none_of_head_ne _ (by intro c hc; simp at hc; subst hc; exact ha),
        tryMatch2_none_of_head_ne _ (by intro c hc; simp at hc; subst hc; exact hab)⟩
    · exact ih hsq' hsb' t ht'

theorem qual_no_match (s rest : List Char)
    (hsq : quoteChar ∉ s) (hsb : '[' ∉ s)
    (hrq : quoteChar ∉ rest) (hrb : '[' ∉ rest)
    (hx : ¬(6 ≤ s.length ∧ xlsxChars <:+ s)) :
    ∀ t, t <:+ (quoteChar :: (s ++ quoteChar :: '!' :: rest)) →
      tryMatch1 t = none ∧ tryMatch2 t = none := by
  intro t ht
  rcases List.suffix_cons_iff.mp ht with he | ht'
  · subst he
    constructor
    · have hfind : (s ++ quoteChar :: '!' :: rest).findIdx? (fun d => d = quoteChar)
          = some s.length := findIdx?_quote_first s ('!' :: rest) hsq
      have htake : (s ++ quoteChar :: '!' :: rest).take s.length = s :=
        List.take_left s (quoteChar :: '!' :: rest)
      simp only [tryMatch1, eq_self_iff_true, if_true, hfind, htake,
        List.isSuffixOf_iff_suffix]
      rw [if_neg]
      rintro ⟨h1, h2, -⟩
      exact hx ⟨h1, h2⟩
    · exact tryMatch2_none_of_head_ne _ (by intro c hc; simp at hc; subst hc; decide)
  · exact suffix_tail_no_match s rest hsq hsb hrq hrb t ht'

/-- Claim C8 counterexample: the claim "a leading `'<name>'!` sheet
qualifier not ending in `.xlsx'!` is removed" is false at the concrete
formula `'Sheet1'!A1+2`: the normalizer returns it unchanged, with the
qualifier `'Sheet1'!` still present as a prefix (the source has no rule for
plain quoted sheet qualifiers, only for quoted `.xlsx` file qualifiers and
bracketed workbook qualifiers). -/
theorem C8_counterexample :
    simplify_formula c8str = c8str ∧ c8qual.toList.isPrefixOf c8str.toList = true := by decide

/-- Claim C8 amended: a formula consisting of a leading single-quoted
sheet-name qualifier `'<name>'!` (where the name is not a `.xlsx`
workbook-file qualifier in the sense of the first rule: not both at least
six characters long and ending in `.xlsx`) followed by a remainder is
returned UNCHANGED by the normalizer — the qualifier is not removed —
provided neither part contains a further quote or an opening bracket that
could wake the other two rules. -/
theorem C8_amended (s rest : List Char)
    (hsq : quoteChar ∉ s) (hsb : '[' ∉ s)
    (hrq : quoteChar ∉ rest) (hrb : '[' ∉ rest)
    (hx : ¬(6 ≤ s.length ∧ xlsxChars <:+ s)) :
    simplify_formula ⟨quoteChar :: (s ++ quoteChar :: '!' :: rest)⟩ =
      ⟨quoteChar :: (s ++ quoteChar :: '!' :: rest)⟩ := by
  have hnm := qual_no_match s rest hsq hsb hrq hrb hx
  unfold simplify_formula
  rw [if_neg (by simp [String.ext_iff])]
  have h1 : sub1 (quoteChar :: (s ++ quoteChar :: '!' :: rest)) =
      quoteChar :: (s ++ quoteChar :: '!' :: rest) :=
    scanSub_eq_self _ _ (fun t ht => (hnm t ht).1) _
  have h2 : sub2 (quoteChar :: (s ++ quoteChar :: '!' :: rest)) =
      quoteChar :: (s ++ quoteChar :: '!' :: rest) :=
    scanSub_eq_self _ _ (fun t ht => (hnm t ht).2) _
  show ⟨sub2 (sub1 (quoteChar :: (s ++ quoteChar :: '!' :: rest)))⟩ =
    (⟨quoteChar :: (s ++ quoteChar :: '!' :: rest)⟩ : String)
  rw [h1, h2]

/-- Witness for C8_amended at `'Sheet1'!A1+2`. -/
theorem C8_witness :
    (quoteChar ∉ "Sheet1".toList ∧ '[' ∉ "Sheet1".toList ∧
      quoteChar ∉ "A1+2".toList ∧ '[' ∉ "A1+2".toList ∧
      ¬(6 ≤ "Sheet1".toList.length ∧ xlsxChars <:+ "Sheet1".toList)) ∧
    simplify_formula ⟨quoteChar :: ("Sheet1".toList ++ quoteChar :: '!' :: "A1+2".toList)⟩ =
      ⟨quoteChar :: ("Sheet1".toList ++ quoteChar :: '!' :: "A1+2".toList)⟩ :=
  ⟨by decide, C8_amended "Sheet1".toList "A1+2".toList
    (by decide) (by decide) (by decide) (by decide) (by decide)⟩

/-! ## Claim C5: multi-file merge collisions -/

/-- Claim C5 counterexample: the claim "colliding labels are either kept
under namespaced identities or surfaced as a collision list, never silently
dropped" is false at two one-reference files both defining `Rate`: the
merge keeps a single entry holding the second file's reference, the first
file's distinct reference is gone, and the merge produces no collision
report (its only output is the merged mapping). -/
theorem C5_counterexample :
    combined_named_refs
        [[("Rate", ⟨"S1", "A1", [], "f1.xlsx"⟩)], [("Rate", ⟨"S2", "B2", [], "f2.xlsx"⟩)]]
      = [("Rate", ⟨"S2", "B2", [], "f2.xlsx"⟩)] ∧
    (⟨"S1", "A1", [], "f1.xlsx"⟩ : RefInfo) ≠ ⟨"S2", "B2", [], "f2.xlsx"⟩ := by decide

/-- Claim C5 amended: when the same label occurs in two merged files, the
later file's reference silently replaces the earlier one under the bare
(un-namespaced) label; no collision is surfaced. -/
theorem C5_amended (lbl : String) (a b : RefInfo) :
    combined_named_refs [[(lbl, a)], [(lbl, b)]] = [(lbl, b)] := by
  simp [combined_named_refs, dictUpdate]

/-- Witness for C5_amended at the `Rate` collision of the two files. -/
theorem C5_witness :
    combined_named_refs
        [[("Rate", ⟨"S1", "A1", [], "f1.xlsx"⟩)], [("Rate", ⟨"S2", "B2", [], "f2.xlsx"⟩)]]
      = [("Rate", ⟨"S2", "B2", [], "f2.xlsx"⟩)] :=
  C5_amended "Rate" ⟨"S1", "A1", [], "f1.xlsx"⟩ ⟨"S2", "B2", [], "f2.xlsx"⟩

/-! ## Claim C6: one entry per destination -/

/-- Claim C6 counterexample: the claim "every destination of a defined name
is emitted as a distinct reference entry" is false at a workbook whose name
`Rate` has the two destinations `S1!A1` and `S2!B2`, both readable: the
extractor returns a single entry (the second destination), because each
destination is assigned under the same bare-name key. -/
theorem C6_counterexample :
    extract_named_references c6wb "f.xlsx" = [("Rate", ⟨"S2", "B2", ["=X*2"], "f.xlsx"⟩)] ∧
    c6wb.defined_names.map (fun dn => dn.destinations.length) = [2] := by decide

/-- Claim C6 amended: for a defined name with two readable destinations,
only the LAST destination survives: each destination's record is assigned
under the bare name, so the second assignment overwrites the first, whatever
the first destination's cell held. -/
theorem C6_amended (cv : String → String → Option CellValue)
    (fl n a s1 r1 s2 r2 : String) (v1 v2 : CellValue)
    (ha : a ≠ "") (h1 : cv s1 (topLeftOf r1) = some v1) (h2 : cv s2 (topLeftOf r2) = some v2) :
    extract_named_references ⟨[⟨n, false, a, [(s1, r1), (s2, r2)]⟩], cv⟩ fl
      = [(n, mkEntry s2 r2 fl v2)] := by
  have ha' : (a == "") = false := by simpa using ha
  simp [extract_named_references, processName, ha', processDest, h1, h2, dictAssign]

/-- Witness for C6_amended at the concrete workbook `c6wb`. -/
theorem C6_witness :
    (("S1!$A$1,S2!$B$2" : String) ≠ "" ∧
      c6wb.cellValue "S1" (topLeftOf "A1") = some (.str "7") ∧
      c6wb.cellValue "S2" (topLeftOf "B2") = some (.str "=X*2")) ∧
    extract_named_references ⟨[⟨"Rate", false, "S1!$A$1,S2!$B$2", [("S1", "A1"), ("S2", "B2")]⟩],
        c6wb.cellValue⟩ "f.xlsx"
      = [("Rate", mkEntry "S2" "B2" "f.xlsx" (.str "=X*2"))] :=
  ⟨by decide, C6_amended c6wb.cellValue "f.xlsx" "Rate" "S1!$A$1,S2!$B$2" "S1" "A1" "S2" "B2"
    (.str "7") (.str "=X*2") (by decide) (by decide) (by decide)⟩

/-! ## Claim C3: graph completeness -/

/-- Claim C3 counterexample: the claim "every reference key of the input
mapping has exactly one (possibly empty) entry in the output graph" is
false at the one-reference mapping holding only `A` with no formula: the
output graph is empty — `A` has no entry at all, because the Python
`defaultdict` only materialises a key when a dependency is appended. -/
theorem C3_counterexample :
    find_dependencies [("A", ⟨"S1", "A1", [], "f1"⟩)] = [] ∧
    "A" ∈ ([("A", ⟨"S1", "A1", [], "f1"⟩)] : RefMap).map Prod.fst := by decide

/-- Claim C3 amended: the output graph has an entry exactly for those input
keys whose formula text matches at least one other label (its non-empty
dependency list, in input order); keys with no dependencies are absent, and
no key outside the input mapping ever appears. -/
theorem C3_amended (m : RefMap) :
    (∀ row ∈ find_dependencies m, row.1 ∈ m.map Prod.fst ∧ row.2 ≠ []) ∧
    (∀ p ∈ m, (dependency_row (m.map Prod.fst) p).2 ≠ [] →
      dependency_row (m.map Prod.fst) p ∈ find_dependencies m) := by
  constructor
  · intro row hrow
    rw [find_dependencies, List.mem_filter] at hrow
    obtain ⟨hmem, hne⟩ := hrow
    obtain ⟨p, hp, rfl⟩ := List.mem_map.mp hmem
    refine ⟨List.mem_map.mpr ⟨p, hp, rfl⟩, ?_⟩
    simpa using hne
  · intro p hp hne
    rw [find_dependencies, List.mem_filter]
    exact ⟨List.mem_map_of_mem _ hp, by simpa using hne⟩

/-- Witness for C3_amended on the Base/Tax mapping: the key `Tax` (with its
dependency on `Base`) receives an entry, as the amended claim requires. -/
theorem C3_witness :
    ((("Tax", ⟨"S", "B1", ["=Base*2"], "f"⟩) : String × RefInfo)
        ∈ ([("Base", ⟨"S", "A1", [], "f"⟩), ("Tax", ⟨"S", "B1", ["=Base*2"], "f"⟩)] : RefMap) ∧
      (dependency_row
          (([("Base", ⟨"S", "A1", [], "f"⟩), ("Tax", ⟨"S", "B1", ["=Base*2"], "f"⟩)] : RefMap).map Prod.fst)
          ("Tax", ⟨"S", "B1", ["=Base*2"], "f"⟩)).2 ≠ []) ∧
    dependency_row
        (([("Base", ⟨"S", "A1", [], "f"⟩), ("Tax", ⟨"S", "B1", ["=Base*2"], "f"⟩)] : RefMap).map Prod.fst)
        ("Tax", ⟨"S", "B1", ["=Base*2"], "f"⟩)
      ∈ find_dependencies [("Base", ⟨"S", "A1", [], "f"⟩), ("Tax", ⟨"S", "B1", ["=Base*2"], "f"⟩)] :=
  ⟨⟨by decide, by decide⟩,
    (C3_amended [("Base", ⟨"S", "A1", [], "f"⟩), ("Tax", ⟨"S", "B1", ["=Base*2"], "f"⟩)]).2
      ("Tax", ⟨"S", "B1", ["=Base*2"], "f"⟩) (by decide) (by decide)⟩

/-! ## Claim C9: no self-edges -/

/-- Claim C9: a reference never appears in its own dependency list — the
resolver's inner loop explicitly skips the pair `(target, target)`. -/
theorem C9_no_self_edges (m : RefMap) : ∀ row ∈ find_dependencies m, row.1 ∉ row.2 := by
  intro row hrow hin
  rw [find_dependencies, List.mem_filter] at hrow
  obtain ⟨hmem, -⟩ := hrow
  obtain ⟨p, hp, rfl⟩ := List.mem_map.mp hmem
  simp [dependency_row, List.mem_filter] at hin

/-- Witness for C9_no_self_edges on the Base/Tax mapping. -/
theorem C9_witness :
    ((("Tax", ["Base"]) : String × List String)
        ∈ find_dependencies [("Base", ⟨"S", "A1", [], "f"⟩), ("Tax", ⟨"S", "B1", ["=Base*2"], "f"⟩)]) ∧
    ("Tax" : String) ∉ (["Base"] : List String) :=
  ⟨by decide,
    C9_no_self_edges [("Base", ⟨"S", "A1", [], "f"⟩), ("Tax", ⟨"S", "B1", ["=Base*2"], "f"⟩)]
      ("Tax", ["Base"]) (by decide)⟩

/-! ## Claim C4: the pairwise dependency test -/

theorem find?_rows_none (L : List String) (part : RefMap) (t : String)
    (h : t ∉ part.map Prod.fst) :
    ((part.map (dependency_row L)).filter (fun row => !row.2.isEmpty)).find?
      (fun r => r.1 == t) = none := by
  induction part with
  | nil => rfl
  | cons p ps ih =>
    have h1 : p.1 ≠ t := by
      intro he
      exact h (List.mem_map.mpr ⟨p, List.mem_cons_self p ps, he⟩)
    have h2 : t ∉ ps.map Prod.fst := by
      intro hm
      obtain ⟨q, hq, hqe⟩ := List.mem_map.mp hm
      exact h (List.mem_map.mpr ⟨q, List.mem_cons_of_mem p hq, hqe⟩)
    have hbeq : ((dependency_row L p).1 == t) = false := by
      simpa [dependency_row] using h1
    by_cases hp : (!(dependency_row L p).2.isEmpty) = true
    · simp only [List.map_cons, List.filter_cons, hp, if_true, List.find?, hbeq]
      exact ih h2
    · simp only [List.map_cons, List.filter_cons, hp, if_false]
      exact ih h2

theorem depsOf_rows (L : List String) (part : RefMap) (t : String) (info : RefInfo)
    (hnd : (part.map Prod.fst).Nodup) (hmem : (t, info) ∈ part) :
    depsOf ((part.map (dependency_row L)).filter (fun row => !row.2.isEmpty)) t
      = (dependency_row L (t, info)).2 := by
  induction part with
  | nil => simp at hmem
  | cons p ps ih =>
    rw [List.map_cons, List.nodup_cons] at hnd
    obtain ⟨hp1, hnd'⟩ := hnd
    rcases List.mem_cons.mp hmem with he | hin
    · subst he
      by_cases hp : (!(dependency_row L (t, info)).2.isEmpty) = true
      · simp only [List.map_cons, List.filter_cons, hp, if_true]
        simp [depsOf, List.find?, dependency_row]
      · have hempty : (dependency_row L (t, info)).2 = [] := by
          simpa using hp
        have hpe : ¬((!(dependency_row L (t, info)).2.isEmpty) = true) := hp
        rw [List.map_cons, List.filter_cons, if_neg hpe]
        rw [depsOf, find?_rows_none L ps t hp1, hempty]
        rfl
    · have hne : p.1 ≠ t := by
        intro he
        exact hp1 (List.mem_map.mpr ⟨(t, info), hin, he.symm⟩)
      have hbeq : ((dependency_row L p).1 == t) = false := by
        simpa [dependency_row] using hne
      by_cases hp : (!(dependency_row L p).2.isEmpty) = true
      · simp only [List.map_cons, List.filter_cons, hp, if_true]
        rw [depsOf, List.find?]
        rw [hbeq]
        exact ih hnd' hin
      · simp only [List.map_cons, List.filter_cons, hp, if_false]
        exact ih hnd' hin

/-- Claim C4 counterexample: the claim specifies a CASE-INSENSITIVE
whole-token match, under which the label `Rate` occurs in the formula
`=rate*2`; the source's regex has no IGNORECASE flag, so the resolver finds
no dependency at all for the mapping `{Rate ↦ (no formula), Total ↦
"=rate*2"}` — the claimed if-and-only-if fails in the "if" direction. -/
theorem C4_counterexample :
    ciTokenMatch "Rate".toList "=rate*2".toList = true ∧
    find_dependencies
        [("Rate", ⟨"S", "A1", [], "f"⟩), ("Total", ⟨"S", "B1", ["=rate*2"], "f"⟩)] = [] := by
  decide

/-- Claim C4 amended: for a mapping with distinct keys, `candidate` is in
`target`'s dependency list if and only if `candidate` is a known label
distinct from `target` whose CASE-SENSITIVE whole-token occurrence (word
boundaries on both sides) is found in `target`'s joined formula text. -/
theorem C4_amended (m : RefMap) (t c : String) (info : RefInfo)
    (hnd : (m.map Prod.fst).Nodup) (ht : (t, info) ∈ m) :
    c ∈ depsOf (find_dependencies m) t ↔
      (c ∈ m.map Prod.fst ∧ c ≠ t ∧
        wordTokenSearch c.toList (formulaTextOf info).toList = true) := by
  rw [find_dependencies, depsOf_rows (m.map Prod.fst) m t info hnd ht]
  simp only [dependency_row, List.mem_filter, Bool.and_eq_true, bne_iff_ne]

/-- Witness for C4_amended: in the Base/Tax mapping, `Base` is a dependency
of `Tax`, and the equivalence evaluates as stated. -/
theorem C4_witness :
    ((([("Base", ⟨"S", "A1", [], "f"⟩), ("Tax", ⟨"S", "B1", ["=Base*2"], "f"⟩)] : RefMap).map
        Prod.fst).Nodup ∧
      (("Tax", ⟨"S", "B1", ["=Base*2"], "f"⟩) : String × RefInfo)
        ∈ ([("Base", ⟨"S", "A1", [], "f"⟩), ("Tax", ⟨"S", "B1", ["=Base*2"], "f"⟩)] : RefMap)) ∧
    ("Base" ∈ depsOf
        (find_dependencies [("Base", ⟨"S", "A1", [], "f"⟩), ("Tax", ⟨"S", "B1", ["=Base*2"], "f"⟩)])
        "Tax" ↔
      ("Base" ∈ ([("Base", ⟨"S", "A1", [], "f"⟩), ("Tax", ⟨"S", "B1", ["=Base*2"], "f"⟩)] : RefMap).map
          Prod.fst ∧
        "Base" ≠ "Tax" ∧
        wordTokenSearch "Base".toList
          (formulaTextOf ⟨"S", "B1", ["=Base*2"], "f"⟩).toList = true)) :=
  ⟨⟨by decide, by decide⟩,
    C4_amended [("Base", ⟨"S", "A1", [], "f"⟩), ("Tax", ⟨"S", "B1", ["=Base*2"], "f"⟩)]
      "Tax" "Base" ⟨"S", "B1", ["=Base*2"], "f"⟩ (by decide) (by decide)⟩

/-! ## Claim C2 counterexample: silent truncation on cycles -/

/-- Claim C2 counterexample: the claim "on a cyclic graph the sequencer
reports a distinct, named cycle-detected failure and does not return a
truncated or partial order" is false at the graph `{A ↦ [B], B ↦ [A],
C ↦ []}`: `topological_sort` returns the partial order `["C"]` — shorter
than the node count — through its normal return path; the source contains
no cycle check and no raise. -/
theorem C2_counterexample :
    topological_sort [("A", ["B"]), ("B", ["A"]), ("C", [])] = ["C"] ∧
    (["C"] : List String).length < ([("A", ["B"]), ("B", ["A"]), ("C", [])] : DepGraph).length := by
  decide

/-! ## Helper lemmas for the topological sequencer -/

theorem cnt_eq_filter_length (dep : String) (l : List String) :
    (l.filter (fun d => d = dep)).length = cnt dep l := by
  induction l with
  | nil => rfl
  | cons a l ih =>
    by_cases h : a = dep
    · rw [List.filter_cons, if_pos (by simpa using h)]
      simp only [List.length_cons, cnt, if_pos h, ih]
      omega
    · rw [List.filter_cons, if_neg (by simpa using h)]
      simp only [cnt, if_neg h, ih, Nat.zero_add]

theorem cnt_map_const (a x : String) (l : List String) :
    cnt x (l.map (fun _ => a)) = if a = x then l.length else 0 := by
  induction l with
  | nil => simp [cnt]
  | cons b l ih =>
    rw [List.map_cons]
    simp only [cnt]
    rw [ih]
    by_cases h : a = x
    · simp only [if_pos h, List.length_cons]
      omega
    · simp only [if_neg h]

theorem mem_graphOf (D : DepGraph) (dep x : String) (h : x ∈ graphOf D dep) :
    x ∈ D.map Prod.fst := by
  unfold graphOf at h
  rw [List.mem_flatten] at h
  obtain ⟨l, hl, hx⟩ := h
  obtain ⟨p, hp, rfl⟩ := List.mem_map.mp hl
  obtain ⟨d, hd, rfl⟩ := List.mem_map.mp hx
  exact List.mem_map.mpr ⟨p, hp, rfl⟩

theorem cnt_graphOf_zero (D : DepGraph) (dep x : String) (h : x ∉ D.map Prod.fst) :
    cnt x (graphOf D dep) = 0 := by
  rw [cnt_eq_zero_iff]
  intro hm
  exact h (mem_graphOf D dep x hm)

theorem depsOf_eq_of_mem (D : DepGraph) (hnd : (D.map Prod.fst).Nodup)
    (p : String × List String) (hp : p ∈ D) : depsOf D p.1 = p.2 := by
  induction D with
  | nil => simp at hp
  | cons q D ih =>
    rw [List.map_cons] at hnd
    obtain ⟨hq1, hnd'⟩ := List.nodup_cons.mp hnd
    rcases List.mem_cons.mp hp with he | hin
    · subst he
      simp [depsOf, List.find?]
    · have hne : q.1 ≠ p.1 := fun he => hq1 (he ▸ List.mem_map.mpr ⟨p, hin, rfl⟩)
      have hbeq : (q.1 == p.1) = false := by simpa using hne
      have := ih hnd' hin
      rw [depsOf] at this ⊢
      simpa [List.find?, hbeq] using this

theorem cnt_graphOf (D : DepGraph) (x dep : String) (hnd : (D.map Prod.fst).Nodup) :
    cnt x (graphOf D dep) = cnt dep (depsOf D x) := by
  induction D with
  | nil => rfl
  | cons p D ih =>
    have hnd2 := hnd
    rw [List.map_cons] at hnd2
    obtain ⟨hp1, hnd'⟩ := List.nodup_cons.mp hnd2
    have hgraph : graphOf (p :: D) dep
        = ((p.2.filter (fun d => d = dep)).map (fun _ => p.1)) ++ graphOf D dep := rfl
    rw [hgraph, cnt_append, cnt_map_const]
    by_cases hx : p.1 = x
    · subst hx
      rw [if_pos rfl, cnt_graphOf_zero D dep p.1 hp1]
      have hdeps : depsOf (p :: D) p.1 = p.2 :=
        depsOf_eq_of_mem (p :: D) hnd p (List.mem_cons_self p D)
      rw [hdeps, Nat.add_zero]
      exact cnt_eq_filter_length dep p.2
    · rw [if_neg hx, Nat.zero_add]
      have hbeq : (p.1 == x) = false := by simpa using hx
      have hdeps : depsOf (p :: D) x = depsOf D x := by
        rw [depsOf, depsOf]
        simp [List.find?, hbeq]
      rw [hdeps]
      exact ih hnd'

theorem relax_indeg (ns : List String) :
    ∀ (indeg : String → Int) (queue : List String) (x : String),
      (relax ns indeg queue).1 x = indeg x - (cnt x ns : Int) := by
  induction ns with
  | nil =>
    intro indeg queue x
    simp [relax, cnt]
  | cons nb nbs ih =>
    intro indeg queue x
    rw [show relax (nb :: nbs) indeg queue
        = relax nbs (fun y => if y = nb then indeg nb - 1 else indeg y)
            (if indeg nb - 1 = 0 then queue ++ [nb] else queue) from rfl]
    rw [ih]
    by_cases h : x = nb
    · subst h
      have h1 : (if x = x then indeg x - 1 else indeg x) = indeg x - 1 := if_pos rfl
      rw [h1]
      have hcnt : cnt x (x :: nbs) = 1 + cnt x nbs := by
        simp [cnt]
      rw [hcnt]
      push_cast
      omega
    · have h1 : (if x = nb then indeg nb - 1 else indeg x) = indeg x := if_neg h
      rw [h1]
      have hcnt : cnt x (nb :: nbs) = cnt x nbs := by
        simp only [cnt, if_neg (show ¬nb = x from fun he => h he.symm), Nat.zero_add]
      rw [hcnt]

theorem relax_queue_cnt (ns : List String) :
    ∀ (indeg : String → Int) (queue : List String) (x : String),
      cnt x (relax ns indeg queue).2
        = cnt x queue + (if 1 ≤ indeg x ∧ indeg x ≤ (cnt x ns : Int) then 1 else 0) := by
  induction ns with
  | nil =>
    intro indeg queue x
    simp only [relax, cnt, Nat.cast_zero]
    rw [if_neg (by omega)]
    omega
  | cons nb nbs ih =>
    intro indeg queue x
    rw [show relax (nb :: nbs) indeg queue
        = relax nbs (fun y => if y = nb then indeg nb - 1 else indeg y)
            (if indeg nb - 1 = 0 then queue ++ [nb] else queue) from rfl]
    rw [ih]
    by_cases hx : x = nb
    · subst hx
      have h1 : (if x = x then indeg x - 1 else indeg x) = indeg x - 1 := if_pos rfl
      rw [h1]
      have hcnt : cnt x (x :: nbs) = 1 + cnt x nbs := by
        simp [cnt]
      rw [hcnt]
      by_cases hd : indeg x - 1 = 0
      · rw [if_pos hd, cnt_append]
        have hone : cnt x [x] = 1 := by
          simp [cnt]
        rw [hone, if_neg (by omega), if_pos (by
          constructor
          · omega
          · push_cast
            omega)]
      · rw [if_neg hd]
        by_cases h1c : 1 ≤ indeg x - 1 ∧ indeg x - 1 ≤ (cnt x nbs : Int)
        · rw [if_pos h1c, if_pos (by
            obtain ⟨ha, hb⟩ := h1c
            constructor
            · omega
            · push_cast
              omega)]
        · rw [if_neg h1c, if_neg (by
            rintro ⟨ha, hb⟩
            push_cast at hb
            exact h1c ⟨by omega, by omega⟩)]
    · have h1 : (if x = nb then indeg nb - 1 else indeg x) = indeg x := if_neg hx
      rw [h1]
      have hcnt : cnt x (nb :: nbs) = cnt x nbs := by
        simp only [cnt, if_neg (show ¬nb = x from fun he => hx he.symm), Nat.zero_add]
      rw [hcnt]
      by_cases hd : indeg nb - 1 = 0
      · rw [if_pos hd, cnt_append]
        have hz : cnt x [nb] = 0 := by
          simp only [cnt, if_neg (show ¬nb = x from fun he => hx he.symm)]
        rw [hz, Nat.add_zero]
      · rw [if_neg hd]

theorem kinv_step (D : DepGraph) (hnd : (D.map Prod.fst).Nodup)
    (node : String) (rest acc : List String) (indeg : String → Int)
    (inv : KInv D (node :: rest) indeg acc) :
    KInv D (relax (graphOf D node) indeg rest).2 (relax (graphOf D node) indeg rest).1
      (acc ++ [node]) := by
  have hnode_mem_old : node ∈ acc ++ node :: rest := by simp
  have hnode_nonpos : indeg node ≤ 0 := inv.nonpos node hnode_mem_old
  have hnode_notin_acc : node ∉ acc := by
    intro hm
    have hdisj := (List.nodup_append.mp inv.nodupAQ).2.2
    exact hdisj hm (List.mem_cons_self node rest)
  have hI : ∀ x, (relax (graphOf D node) indeg rest).1 x
      = indeg x - (cnt x (graphOf D node) : Int) := relax_indeg (graphOf D node) indeg rest
  have hQ : ∀ x, cnt x (relax (graphOf D node) indeg rest).2
      = cnt x rest
        + (if 1 ≤ indeg x ∧ indeg x ≤ (cnt x (graphOf D node) : Int) then 1 else 0) :=
    relax_queue_cnt (graphOf D node) indeg rest
  have hC : ∀ x, cnt x (graphOf D node) = cnt node (depsOf D x) :=
    fun x => cnt_graphOf D x node hnd
  have hsplit : ∀ x, x ∈ (acc ++ [node]) ++ (relax (graphOf D node) indeg rest).2 →
      x ∈ acc ++ node :: rest ∨
        (1 ≤ indeg x ∧ indeg x ≤ (cnt x (graphOf D node) : Int)) := by
    intro x hx
    rcases List.mem_append.mp hx with hx | hx
    · rcases List.mem_append.mp hx with hx | hx
      · exact Or.inl (List.mem_append_left _ hx)
      · rw [List.mem_singleton] at hx
        subst hx
        exact Or.inl hnode_mem_old
    · have hpos := (cnt_pos_iff x _).mpr hx
      rw [hQ x] at hpos
      by_cases hf : (1 ≤ indeg x ∧ indeg x ≤ (cnt x (graphOf D node) : Int))
      · exact Or.inr hf
      · rw [if_neg hf] at hpos
        have hr : x ∈ rest := (cnt_pos_iff x rest).mp (by omega)
        exact Or.inl (List.mem_append_right _ (List.mem_cons_of_mem node hr))
  refine ⟨?_, ?_, ?_, ?_, ?_, ?_⟩
  · rw [nodup_iff_cnt_le_one]
    intro x
    have hold := (nodup_iff_cnt_le_one _).mp inv.nodupAQ x
    rw [cnt_append] at hold ⊢
    rw [cnt_append, hQ x]
    have h3 : cnt x [node] + cnt x rest = cnt x (node :: rest) := by
      simp [cnt]
    by_cases hf : (1 ≤ indeg x ∧ indeg x ≤ (cnt x (graphOf D node) : Int))
    · have hnm : x ∉ acc ++ node :: rest := by
        intro hm
        have := inv.nonpos x hm
        obtain ⟨h1, -⟩ := hf
        omega
      rw [List.mem_append] at hnm
      push_neg at hnm
      have h1 : cnt x acc = 0 := (cnt_eq_zero_iff _ _).mpr hnm.1
      have h2 : cnt x (node :: rest) = 0 := (cnt_eq_zero_iff _ _).mpr hnm.2
      rw [if_pos hf]
      omega
    · rw [if_neg hf]
      omega
  · intro x hx
    rcases hsplit x hx with hm | hf
    · exact inv.memK x hm
    · have hpos : 0 < cnt x (graphOf D node) := by
        obtain ⟨h1, h2⟩ := hf
        omega
      exact mem_graphOf D node x ((cnt_pos_iff _ _).mp hpos)
  · intro x hx
    rw [hI x]
    rcases hsplit x hx with hm | hf
    · have := inv.nonpos x hm
      have hc : (0 : Int) ≤ (cnt x (graphOf D node) : Int) := by positivity
      omega
    · obtain ⟨-, h2⟩ := hf
      omega
  · intro x hxk hle
    rw [hI x] at hle
    by_cases hge : 1 ≤ indeg x
    · have hf : 1 ≤ indeg x ∧ indeg x ≤ (cnt x (graphOf D node) : Int) := ⟨hge, by omega⟩
      have hq : 0 < cnt x (relax (graphOf D node) indeg rest).2 := by
        rw [hQ x, if_pos hf]
        omega
      exact List.mem_append_right _ ((cnt_pos_iff _ _).mp hq)
    · have hold := inv.zmem x hxk (by omega)
      rcases List.mem_append.mp hold with h | h
      · exact List.mem_append_left _ (List.mem_append_left _ h)
      · rcases List.mem_cons.mp h with h | h
        · subst h
          exact List.mem_append_left _ (List.mem_append_right _ (List.mem_singleton.mpr rfl))
        · have hq : 0 < cnt x (relax (graphOf D node) indeg rest).2 := by
            rw [hQ x]
            have := (cnt_pos_iff x rest).mpr h
            omega
          exact List.mem_append_right _ ((cnt_pos_iff _ _).mp hq)
  · intro x
    rw [hI x, inv.cntEq x, hC x]
    have hpc := pendingCount_append_one acc (depsOf D x) node hnode_notin_acc
    omega
  · intro t ht s hs
    rcases List.mem_append.mp ht with ht | ht
    · obtain ⟨hs1, hs2⟩ := inv.ordered t ht s hs
      refine ⟨List.mem_append_left _ hs1, ?_⟩
      rw [idxOf_append_left s acc [node] hs1, idxOf_append_left t acc [node] ht]
      exact hs2
    · rw [List.mem_singleton] at ht
      subst ht
      have h0 : pendingCount acc (depsOf D t) = 0 := by
        have h1 := inv.cntEq t
        have h2 : indeg t ≤ 0 := inv.nonpos t (by simp)
        omega
      have hsacc : s ∈ acc := (pendingCount_eq_zero_iff acc _).mp h0 s hs
      refine ⟨List.mem_append_left _ hsacc, ?_⟩
      rw [idxOf_append_left s acc [t] hsacc, idxOf_append_self t acc ?hnin]
      case hnin =>
        exact hnode_notin_acc
      exact idxOf_lt_length s acc hsacc

theorem kahn_go_final (D : DepGraph) (hnd : (D.map Prod.fst).Nodup) :
    ∀ (fuel : Nat) (queue : List String) (indeg : String → Int) (acc : List String),
      KInv D queue indeg acc → D.length < fuel + acc.length →
      KFinal D (kahnGo (graphOf D) fuel queue indeg acc) := by
  intro fuel
  induction fuel with
  | zero =>
    intro queue indeg acc inv hlen
    exfalso
    have hsub : acc ⊆ D.map Prod.fst := fun x hx => inv.memK x (List.mem_append_left _ hx)
    have hnd_acc : acc.Nodup := (List.nodup_append.mp inv.nodupAQ).1
    have hle := (hnd_acc.subperm hsub).length_le
    rw [List.length_map] at hle
    omega
  | succ fuel ih =>
    intro queue indeg acc inv hlen
    cases queue with
    | nil =>
      rw [show kahnGo (graphOf D) (fuel + 1) [] indeg acc = acc from rfl]
      have hnd_acc : acc.Nodup := by simpa using inv.nodupAQ
      refine ⟨hnd_acc, ?_, ?_, ?_⟩
      · intro x hx
        exact inv.memK x (by simpa using hx)
      · intro t ht s hs
        exact inv.ordered t ht s hs
      · intro x hxk hpc
        have h1 := inv.cntEq x
        have h2 : indeg x ≤ 0 := by omega
        simpa using inv.zmem x hxk h2
    | cons node rest =>
      rw [show kahnGo (graphOf D) (fuel + 1) (node :: rest) indeg acc
          = kahnGo (graphOf D) fuel (relax (graphOf D node) indeg rest).2
              (relax (graphOf D node) indeg rest).1 (acc ++ [node]) from rfl]
      apply ih _ _ _ (kinv_step D hnd node rest acc indeg inv)
      rw [List.length_append, List.length_singleton]
      omega

theorem kinv_initial (D : DepGraph) (hnd : (D.map Prod.fst).Nodup) :
    KInv D ((D.map Prod.fst).filter (fun n => initIndeg D n = 0)) (initIndeg D) [] := by
  refine ⟨?_, ?_, ?_, ?_, ?_, ?_⟩
  · simpa using hnd.filter _
  · intro x hx
    rw [List.nil_append] at hx
    exact List.mem_of_mem_filter hx
  · intro x hx
    rw [List.nil_append] at hx
    have := List.of_mem_filter hx
    simp at this
    omega
  · intro x hxk hle
    have h0 : initIndeg D x = 0 := by
      have : (0 : Int) ≤ initIndeg D x := by
        unfold initIndeg
        positivity
      omega
    rw [List.nil_append]
    exact List.mem_filter.mpr ⟨hxk, by simp [h0]⟩
  · intro x
    rw [pendingCount_nil_acc]
    rfl
  · intro t ht
    simp at ht

theorem topological_sort_final (D : DepGraph) (hnd : (D.map Prod.fst).Nodup) :
    KFinal D (topological_sort D) := by
  apply kahn_go_final D hnd (D.length + 1) _ _ [] (kinv_initial D hnd)
  simp

theorem kahn_complete (D : DepGraph) (rk : String → Nat)
    (hnd : (D.map Prod.fst).Nodup)
    (hcl : ∀ p ∈ D, ∀ d ∈ p.2, d ∈ D.map Prod.fst)
    (hrk : ∀ p ∈ D, ∀ d ∈ p.2, rk d < rk p.1) :
    ∀ x ∈ D.map Prod.fst, x ∈ topological_sort D := by
  obtain ⟨-, -, -, hfin⟩ := topological_sort_final D hnd
  have main : ∀ n x, x ∈ D.map Prod.fst → rk x < n → x ∈ topological_sort D := by
    intro n
    induction n with
    | zero =>
      intro x _ h
      omega
    | succ n ihn =>
      intro x hxk hlt
      obtain ⟨p, hp, hpe⟩ := List.mem_map.mp hxk
      have hdeps : depsOf D x = p.2 := by
        rw [← hpe]
        exact depsOf_eq_of_mem D hnd p hp
      apply hfin x hxk
      rw [pendingCount_eq_zero_iff]
      intro d hd
      rw [hdeps] at hd
      have hdk : d ∈ D.map Prod.fst := hcl p hp d hd
      have hdr : rk d < rk p.1 := hrk p hp d hd
      rw [hpe] at hdr
      exact ihn d hdk (by omega)
  exact fun x hx => main (rk x + 1) x hx (by omega)

/-! ## Claims C1, C10, C2 (amended) about the topological sequencer -/

/-- Claim C1: on a well-formed dependency graph — unique keys (a Python
dict), every dependency itself a key (as the data model requires of a
`DependencyGraph`), and cycle-free (witnessed, as is equivalent for finite
graphs, by a rank function strictly increasing along every edge
`source → target`) — `topological_sort` returns a permutation of the node
set (every reference identity exactly once), and for every edge
`source → target` the source's index strictly precedes the target's. -/
theorem C1_topological_order (D : DepGraph) (rk : String → Nat)
    (hnd : (D.map Prod.fst).Nodup)
    (hcl : ∀ p ∈ D, ∀ d ∈ p.2, d ∈ D.map Prod.fst)
    (hrk : ∀ p ∈ D, ∀ d ∈ p.2, rk d < rk p.1) :
    (topological_sort D).Perm (D.map Prod.fst) ∧
      ∀ p ∈ D, ∀ s ∈ p.2, idxOf s (topological_sort D) < idxOf p.1 (topological_sort D) := by
  obtain ⟨hnodup, hmem, hord, -⟩ := topological_sort_final D hnd
  have hcomp := kahn_complete D rk hnd hcl hrk
  constructor
  · rw [List.perm_ext_iff_of_nodup hnodup hnd]
    intro a
    exact ⟨fun h => hmem a h, fun h => hcomp a h⟩
  · intro p hp s hs
    have hp1 : p.1 ∈ topological_sort D := hcomp p.1 (List.mem_map.mpr ⟨p, hp, rfl⟩)
    have hdeps : depsOf D p.1 = p.2 := depsOf_eq_of_mem D hnd p hp
    exact (hord p.1 hp1 s (by rw [hdeps]; exact hs)).2

/-- Witness for C1_topological_order at the Base/Tax/Total graph of the
end-to-end scenario, with the rank function `rk0`. -/
theorem C1_witness :
    ((([("Base", []), ("Tax", ["Base"]), ("Total", ["Base", "Tax"])] : DepGraph).map
        Prod.fst).Nodup ∧
      (∀ p ∈ ([("Base", []), ("Tax", ["Base"]), ("Total", ["Base", "Tax"])] : DepGraph),
        ∀ d ∈ p.2,
          d ∈ ([("Base", []), ("Tax", ["Base"]), ("Total", ["Base", "Tax"])] : DepGraph).map
            Prod.fst) ∧
      (∀ p ∈ ([("Base", []), ("Tax", ["Base"]), ("Total", ["Base", "Tax"])] : DepGraph),
        ∀ d ∈ p.2, rk0 d < rk0 p.1)) ∧
    ((topological_sort [("Base", []), ("Tax", ["Base"]), ("Total", ["Base", "Tax"])]).Perm
        (([("Base", []), ("Tax", ["Base"]), ("Total", ["Base", "Tax"])] : DepGraph).map
          Prod.fst) ∧
      ∀ p ∈ ([("Base", []), ("Tax", ["Base"]), ("Total", ["Base", "Tax"])] : DepGraph),
        ∀ s ∈ p.2,
          idxOf s (topological_sort [("Base", []), ("Tax", ["Base"]), ("Total", ["Base", "Tax"])])
            < idxOf p.1
                (topological_sort [("Base", []), ("Tax", ["Base"]), ("Total", ["Base", "Tax"])])) :=
  ⟨⟨by decide, by decide, by decide⟩,
    C1_topological_order [("Base", []), ("Tax", ["Base"]), ("Total", ["Base", "Tax"])] rk0
      (by decide) (by decide) (by decide)⟩

/-- Claim C10: for every dependency mapping, every element of the returned
order is a key of the mapping and occurs at most once; in particular an
identity occurring only inside dependency lists and never as a key never
appears in the order (the ready-queue is seeded from keys, and the reversed
adjacency only ever enqueues keys). -/
theorem C10_order_within_keys (D : DepGraph) (hnd : (D.map Prod.fst).Nodup) :
    (topological_sort D).Nodup ∧ ∀ x ∈ topological_sort D, x ∈ D.map Prod.fst := by
  obtain ⟨h1, h2, -, -⟩ := topological_sort_final D hnd
  exact ⟨h1, h2⟩

/-- Witness for C10_order_within_keys at a graph whose `Tax` entry mentions
the value-only identity `X`, which accordingly never appears in the order. -/
theorem C10_witness :
    ((([("Base", []), ("Tax", ["Base", "X"])] : DepGraph).map Prod.fst).Nodup) ∧
    ((topological_sort [("Base", []), ("Tax", ["Base", "X"])]).Nodup ∧
      ∀ x ∈ topological_sort [("Base", []), ("Tax", ["Base", "X"])],
        x ∈ ([("Base", []), ("Tax", ["Base", "X"])] : DepGraph).map Prod.fst) :=
  ⟨by decide, C10_order_within_keys [("Base", []), ("Tax", ["Base", "X"])] (by decide)⟩

/-- Claim C2 amended: on a graph containing two mutually dependent
references, `topological_sort` silently omits both from the list it returns
— the order is truncated, and no cycle-detected failure of any kind is
raised (the function's only outcome is its returned list). -/
theorem C2_amended (D : DepGraph) (a b : String) (dsa dsb : List String)
    (hnd : (D.map Prod.fst).Nodup) (ha : (a, dsa) ∈ D) (hb : (b, dsb) ∈ D)
    (hab : b ∈ dsa) (hba : a ∈ dsb) :
    a ∉ topological_sort D ∧ b ∉ topological_sort D := by
  obtain ⟨-, -, hord, -⟩ := topological_sort_final D hnd
  have hdepsa : depsOf D a = dsa := depsOf_eq_of_mem D hnd (a, dsa) ha
  have hdepsb : depsOf D b = dsb := depsOf_eq_of_mem D hnd (b, dsb) hb
  have hna : a ∉ topological_sort D := by
    intro hain
    obtain ⟨hbin, hlt1⟩ := hord a hain b (by rw [hdepsa]; exact hab)
    obtain ⟨-, hlt2⟩ := hord b hbin a (by rw [hdepsb]; exact hba)
    omega
  exact ⟨hna, fun hbin => hna (hord b hbin a (by rw [hdepsb]; exact hba)).1⟩

/-- Witness for C2_amended at the two-cycle `{A ↦ [B], B ↦ [A]}`. -/
theorem C2_witness :
    ((([("A", ["B"]), ("B", ["A"])] : DepGraph).map Prod.fst).Nodup ∧
      (("A", ["B"]) : String × List String) ∈ ([("A", ["B"]), ("B", ["A"])] : DepGraph) ∧
      (("B", ["A"]) : String × List String) ∈ ([("A", ["B"]), ("B", ["A"])] : DepGraph) ∧
      "B" ∈ (["B"] : List String) ∧ "A" ∈ (["A"] : List String)) ∧
    ("A" ∉ topological_sort [("A", ["B"]), ("B", ["A"])] ∧
      "B" ∉ topological_sort [("A", ["B"]), ("B", ["A"])]) :=
  ⟨⟨by decide, by decide, by decide, by decide, by decide⟩,
    C2_amended [("A", ["B"]), ("B", ["A"])] "A" "B" ["B"] ["A"]
      (by decide) (by decide) (by decide) (by decide) (by decide)⟩

end SpreadsheetApp
